import Mathlib

/-!
# Verification of the v4-liq-tracker event-replay and aggregation engine

Shallow embedding of the algorithmic core of the repository:

* `src/lib/swapDataFetcher.ts`   — `fetchAllSwapEvents` (paginated bulk fetch)
* `src/lib/feesProcessor.ts`     — `calculateDailyFees`
* `src/lib/eventsProcessor.ts`   — `processEventsIntoMap`
* `src/lib/liquidityHistoryUtils.ts` — `useLiquidityHistory`, `fillMissingDates`
* `src/lib/tickDataProcessor.ts` — `generateTicksFromPositions`
* `src/lib/liquidityMath.ts`     — `calculateLiquidityDelta`

Modelling conventions:

* Unix timestamps (seconds) are `Nat`; the JavaScript local-calendar-day key
  `YYYY-MM-DD` is modelled as the epoch-day number `t / 86400` and the
  day-start `Date` as `(t / 86400) * 86400` (a UTC-locale run of the code).
* On-chain `BigInt` liquidity values are `Int` (exact, as in the source).
* JavaScript `number` (USD amounts, prices, token balances) is modelled as
  `ℚ`; none of the verified claims depends on binary floating-point rounding.
* Decimal-string fields (`liquidityDelta`, `timestamp`, `amountUSD`, ...) are
  modelled by their parsed numeric value; a falsy/absent string is `Option.none`.
  The sign test `string.startsWith '-'` becomes `d < 0` (canonical strings).
* A JavaScript `Map` is an insertion-ordered association list
  `List (κ × α)`; `Map.set` replaces in place or appends (`assocSet`),
  `Map.get`/`Map.has` is `assocGet`.
* Display-only float fields (`price0`/`price1` of a tick, the redundant
  `date : Date` field next to `timestamp`) are omitted: no claim mentions
  them and they feed nothing else.
-/

namespace V4LiqTracker

/-- Seconds in one calendar day. -/
def secPerDay : Nat := 86400

/-- Epoch-day number of a unix timestamp: the model of the `YYYY-MM-DD`
date key computed by `getDateKey` in `eventsProcessor.ts`. -/
def dayOf (t : Nat) : Nat := t / secPerDay

/-- Midnight (00:00:00) of the day containing `t`: the model of
`new Date(date.setHours(0,0,0,0))`. -/
def dayStart (t : Nat) : Nat := dayOf t * secPerDay

/-! ## Association-list model of a JavaScript `Map` -/

/-- `Map.set k v`: replace the entry at `k` in place if present, else append. -/
def assocSet {κ α : Type} [DecidableEq κ] (k : κ) (v : α) :
    List (κ × α) → List (κ × α)
  | [] => [(k, v)]
  | (k', v') :: rest =>
    if k' = k then (k, v) :: rest else (k', v') :: assocSet k v rest

/-- `Map.get k` (and `Map.has k` via `Option.isSome`). -/
def assocGet {κ α : Type} [DecidableEq κ] (k : κ) :
    List (κ × α) → Option α
  | [] => none
  | (k', v') :: rest => if k' = k then some v' else assocGet k rest

/-! ## Data model (`src/types`) -/

/-- A swap event as consumed by the fetcher/aggregator: the fields the
algorithms read.  `tick`/`sqrtPriceX96` are `none` when the record's string
field is falsy (the `if (swap.tick)` guards). -/
structure SwapEvent where
  timestamp : Nat
  amountUSD : ℚ
  tick : Option Int
  sqrtPriceX96 : Option ℚ
  deriving Repr, DecidableEq

/-- A liquidity-modification event.  `liquidityDelta = none` models a falsy
(absent/empty) `liquidityDelta` string, which makes `processEventsIntoMap`
skip the state update but still record a snapshot. -/
structure ModifyLiquidityEvent where
  timestamp : Nat
  liquidityDelta : Option Int
  amount0 : ℚ
  amount1 : ℚ
  deriving Repr, DecidableEq

/-- Pool metadata (`Pool`), the fields read by the replay engine. -/
structure Pool where
  tick : Int
  sqrtPrice : ℚ
  token0Price : ℚ
  token1Price : ℚ
  feeTier : ℚ
  deriving Repr, DecidableEq

/-! ## Bulk Event Fetcher (`src/lib/swapDataFetcher.ts`) -/

/-- Result of a bulk fetch: the accumulated events plus how many times the
remote service was queried (one query per iteration of the `while` loop). -/
structure FetchResult where
  events : List SwapEvent
  calls : Nat
  deriving Repr, DecidableEq

/-- The remote query service, abstracted as the sequence of pages it returns:
`service n` is the page answering the `n`-th query (0-based).  The loop's
`currentStartTime` cursor is still threaded through the state exactly as in
the source, so the model performs the same bookkeeping as the code. -/
def Service : Type := Nat → List SwapEvent

/-- The body of the `while (hasMoreData && batchCount < maxBatches)` loop of
`fetchAllSwapEvents`.  Checks, in source order: empty page → stop; page whose
last timestamp equals `lastTimestamp` → stop (stall guard); append the page;
short page → stop after appending; otherwise advance
`lastTimestamp`/`currentStartTime`/`batchCount` and loop. -/
def fetchGo (service : Service) (batchSize maxBatches batchCount : Nat)
    (acc : List SwapEvent) (lastTimestamp currentStartTime : Nat) :
    FetchResult :=
  if batchCount < maxBatches then
    let page := service batchCount
    match page.getLast? with
    | none => ⟨acc, batchCount + 1⟩
    | some lastEvent =>
      if lastTimestamp = lastEvent.timestamp then
        ⟨acc, batchCount + 1⟩
      else
        let acc' := acc ++ page
        if page.length < batchSize then
          ⟨acc', batchCount + 1⟩
        else
          fetchGo service batchSize maxBatches (batchCount + 1) acc'
            lastEvent.timestamp (lastEvent.timestamp + 1)
  else
    ⟨acc, batchCount⟩
  termination_by maxBatches - batchCount
  decreasing_by omega

/-- `fetchAllSwapEvents(client, poolId, startTime, maxBatches, batchSize)`:
`allEvents = []`, `currentStartTime = startTime`, `batchCount = 0`,
`lastTimestamp = 0`. -/
def fetchAllSwapEvents (service : Service) (startTime : Nat)
    (maxBatches batchSize : Nat) : FetchResult :=
  fetchGo service batchSize maxBatches 0 [] 0 startTime

/-- Last timestamp of a page (`fetchedEvents[fetchedEvents.length - 1].timestamp`);
defaults to `0` on an empty page, where the code never reads it. -/
def pageLast (page : List SwapEvent) : Nat :=
  (page.getLast?.map SwapEvent.timestamp).getD 0

/-! ## Fee & Volume Aggregator (`src/lib/feesProcessor.ts`) -/

/-- `DailyFeeData`: one per-day bucket of fee/volume totals. -/
structure DailyFeeData where
  timestamp : Nat
  feeUSD : ℚ
  volumeUSD : ℚ
  count : Nat
  deriving Repr, DecidableEq

/-- Body of the `swapEvents.forEach` in `calculateDailyFees`: skip a zero
timestamp, skip a zero amount, otherwise add into (or create) the bucket for
the event's calendar day.  The bucket's `timestamp` is the day start. -/
def dailyFeesStep (feeRate : ℚ) (m : List (Nat × DailyFeeData))
    (swap : SwapEvent) : List (Nat × DailyFeeData) :=
  if swap.timestamp = 0 then m
  else if swap.amountUSD = 0 then m
  else
    let k := dayOf swap.timestamp
    let feeAmount := swap.amountUSD * feeRate
    match assocGet k m with
    | some d =>
      assocSet k
        { d with
          feeUSD := d.feeUSD + feeAmount
          volumeUSD := d.volumeUSD + swap.amountUSD
          count := d.count + 1 } m
    | none =>
      assocSet k
        { timestamp := dayStart swap.timestamp
          feeUSD := feeAmount
          volumeUSD := swap.amountUSD
          count := 1 } m

/-- `calculateDailyFees(swapEvents, feeTier)`: empty input short-circuits to
`[]`; otherwise bucket by calendar day and return the buckets sorted by
timestamp. -/
def calculateDailyFees (swapEvents : List SwapEvent) (feeTier : ℚ) :
    List DailyFeeData :=
  if swapEvents.isEmpty then []
  else
    let feeRate := feeTier / 1000000
    let m := swapEvents.foldl (dailyFeesStep feeRate) []
    (m.map Prod.snd).insertionSort (fun a b => a.timestamp ≤ b.timestamp)

/-! ## State Reconstructor (`src/lib/eventsProcessor.ts`) -/

/-- One row of the derived series (`LiquidityDataPoint`); `timestamp` is the
local-midnight unix time of the row's calendar day. -/
structure LiquidityDataPoint where
  timestamp : Nat
  liquidity : ℚ
  tvlUSD : ℚ
  token0Amount : ℚ
  token1Amount : ℚ
  tick : Int
  sqrtPrice : ℚ
  deriving Repr, DecidableEq

/-- The running totals threaded through the replay loops
(`currentLiquidity`, `currentTvlUSD`, ...). -/
structure ReplayState where
  currentLiquidity : Int
  currentTvlUSD : ℚ
  currentToken0 : ℚ
  currentToken1 : ℚ
  currentTick : Int
  currentSqrtPrice : ℚ
  deriving Repr, DecidableEq

/-- `formatLiquidity`: downscale the exact liquidity by `10^6` for display. -/
def formatLiquidity (liquidity : Int) : ℚ := (liquidity : ℚ) / 1000000

/-- The snapshot written into the date map for day-key `k` from the running
state (the object literal passed to `dateMap.set`). -/
def mkPoint (k : Nat) (s : ReplayState) : LiquidityDataPoint :=
  { timestamp := k * secPerDay
    liquidity := formatLiquidity s.currentLiquidity
    tvlUSD := s.currentTvlUSD
    token0Amount := s.currentToken0
    token1Amount := s.currentToken1
    tick := s.currentTick
    sqrtPrice := s.currentSqrtPrice }

/-- The `if (event.liquidityDelta) { ... }` block of `processEventsIntoMap`:
apply the signed delta to the exact liquidity, adjust token balances by the
absolute event amounts (removals clamped at zero by `Math.max(0, ...)`), and
recompute TVL from the pool's current token prices. -/
def applyLiquidityEvent (poolData : Pool) (s : ReplayState)
    (event : ModifyLiquidityEvent) : ReplayState :=
  match event.liquidityDelta with
  | none => s
  | some d =>
    let newLiquidity :=
      if d < 0 then s.currentLiquidity - (d.natAbs : Int)
      else s.currentLiquidity + d
    let newToken0 :=
      if d < 0 then max 0 (s.currentToken0 - |event.amount0|)
      else s.currentToken0 + |event.amount0|
    let newToken1 :=
      if d < 0 then max 0 (s.currentToken1 - |event.amount1|)
      else s.currentToken1 + |event.amount1|
    let newTvlUSD :=
      newToken0 * poolData.token0Price + newToken1 * poolData.token1Price
    { s with
      currentLiquidity := newLiquidity
      currentTvlUSD := newTvlUSD
      currentToken0 := newToken0
      currentToken1 := newToken1 }

/-- One iteration of the liquidity-event loop: update the running state, then
save/overwrite the snapshot for the event's calendar day. -/
def liqStep (poolData : Pool)
    (acc : List (Nat × LiquidityDataPoint) × ReplayState)
    (event : ModifyLiquidityEvent) :
    List (Nat × LiquidityDataPoint) × ReplayState :=
  let s := applyLiquidityEvent poolData acc.2 event
  let k := dayOf event.timestamp
  (assocSet k (mkPoint k s) acc.1, s)

/-- One iteration of the swap-event loop: update running tick/price from the
swap's own fields (when truthy), then patch the day's snapshot in place,
or create it from the running state when the day has none. -/
def swapStep (acc : List (Nat × LiquidityDataPoint) × ReplayState)
    (swap : SwapEvent) :
    List (Nat × LiquidityDataPoint) × ReplayState :=
  let s :=
    { acc.2 with
      currentTick := swap.tick.getD acc.2.currentTick
      currentSqrtPrice := swap.sqrtPriceX96.getD acc.2.currentSqrtPrice }
  let k := dayOf swap.timestamp
  match assocGet k acc.1 with
  | some dataPoint =>
    (assocSet k
      { dataPoint with
        tick := s.currentTick
        sqrtPrice := s.currentSqrtPrice } acc.1, s)
  | none => (assocSet k (mkPoint k s) acc.1, s)

/-- The 90-day lookback window used by `processEventsIntoMap`. -/
def lookbackSeconds : Nat := 90 * 24 * 60 * 60

/-- `processEventsIntoMap(liquidityEvents, swapEvents, poolData)` with the
`Date.now()` anchor made explicit as `now`.  Filters both inputs to the
90-day window and sorts them ascending, seeds the map with a snapshot of the
zero-initialized state at the window start, then replays liquidity events
and swap events in order. -/
def processEventsIntoMap (liquidityEvents : List ModifyLiquidityEvent)
    (swapEvents : List SwapEvent) (poolData : Pool) (now : Nat) :
    List (Nat × LiquidityDataPoint) :=
  let startTimestamp := now - lookbackSeconds
  let relevantLiquidityEvents :=
    (liquidityEvents.filter (fun e => startTimestamp ≤ e.timestamp)).insertionSort
      (fun a b => a.timestamp ≤ b.timestamp)
  let relevantSwapEvents :=
    (swapEvents.filter (fun e => startTimestamp ≤ e.timestamp)).insertionSort
      (fun a b => a.timestamp ≤ b.timestamp)
  let s0 : ReplayState :=
    { currentLiquidity := 0
      currentTvlUSD := 0
      currentToken0 := 0
      currentToken1 := 0
      currentTick := poolData.tick
      currentSqrtPrice := poolData.sqrtPrice }
  let startDateKey := dayOf startTimestamp
  let m0 := assocSet startDateKey (mkPoint startDateKey s0) []
  let afterLiq := relevantLiquidityEvents.foldl (liqStep poolData) (m0, s0)
  let afterSwap := relevantSwapEvents.foldl swapStep afterLiq
  afterSwap.1

/-! ## History pipeline (`src/lib/liquidityHistoryUtils.ts`) -/

/-- `ExtendedChartDataPoint`: a `LiquidityDataPoint` with the fee figures
merged in. -/
structure ExtendedChartDataPoint where
  timestamp : Nat
  liquidity : ℚ
  tvlUSD : ℚ
  token0Amount : ℚ
  token1Amount : ℚ
  tick : Int
  sqrtPrice : ℚ
  dailyFeeUSD : ℚ
  volumeUSD : ℚ
  swapCount : Nat
  deriving Repr, DecidableEq

/-- `combineDataWithFees`: attach the matching day's fee data (zeros when the
day has no fee bucket). -/
def combineDataWithFees (dataPoints : List LiquidityDataPoint)
    (feesData : List DailyFeeData) : List ExtendedChartDataPoint :=
  dataPoints.map fun dataPoint =>
    match feesData.find? (fun fee => fee.timestamp = dataPoint.timestamp) with
    | some matchingFee =>
      { timestamp := dataPoint.timestamp
        liquidity := dataPoint.liquidity
        tvlUSD := dataPoint.tvlUSD
        token0Amount := dataPoint.token0Amount
        token1Amount := dataPoint.token1Amount
        tick := dataPoint.tick
        sqrtPrice := dataPoint.sqrtPrice
        dailyFeeUSD := matchingFee.feeUSD
        volumeUSD := matchingFee.volumeUSD
        swapCount := matchingFee.count }
    | none =>
      { timestamp := dataPoint.timestamp
        liquidity := dataPoint.liquidity
        tvlUSD := dataPoint.tvlUSD
        token0Amount := dataPoint.token0Amount
        token1Amount := dataPoint.token1Amount
        tick := dataPoint.tick
        sqrtPrice := dataPoint.sqrtPrice
        dailyFeeUSD := 0
        volumeUSD := 0
        swapCount := 0 }

/-- The synthesized point `fillMissingDates` pushes for a missing day:
previous day's standing state with zero fee/volume/swap-count. -/
def mkFilledPoint (curDay : Nat) (previousData : ExtendedChartDataPoint) :
    ExtendedChartDataPoint :=
  { timestamp := curDay * secPerDay
    liquidity := previousData.liquidity
    tvlUSD := previousData.tvlUSD
    token0Amount := previousData.token0Amount
    token1Amount := previousData.token1Amount
    tick := previousData.tick
    sqrtPrice := previousData.sqrtPrice
    dailyFeeUSD := 0
    volumeUSD := 0
    swapCount := 0 }

/-- One iteration of the `while (currentDate <= endDate)` loop: if no point
of `filledData` falls on `curDay`, copy the previous day's point (when one
exists) onto `curDay`'s midnight. -/
def fillStep (curDay : Nat) (filledData : List ExtendedChartDataPoint) :
    List ExtendedChartDataPoint :=
  if filledData.any (fun point => dayOf point.timestamp = curDay) then
    filledData
  else
    match filledData.find? (fun point => dayOf point.timestamp = curDay - 1) with
    | some previousData => filledData ++ [mkFilledPoint curDay previousData]
    | none => filledData

/-- The `while (currentDate <= endDate)` day-walking loop of
`fillMissingDates`.  The structural `fuel` argument is the loop's exact
iteration count, `endDay + 1 - curDay` at entry: the loop advances one day
per iteration and exits as soon as `curDay > endDay`, so guard and fuel run
out together. -/
def fillGo (endDay : Nat) :
    Nat → Nat → List ExtendedChartDataPoint → List ExtendedChartDataPoint
  | 0, _, filledData => filledData
  | fuel + 1, curDay, filledData =>
    if curDay ≤ endDay then
      fillGo endDay fuel (curDay + 1) (fillStep curDay filledData)
    else filledData

/-- `fillMissingDates(dataPoints)`: walk every calendar day between the first
and last point, synthesizing carried-forward points for missing days, then
sort by timestamp. -/
def fillMissingDates (dataPoints : List ExtendedChartDataPoint) :
    List ExtendedChartDataPoint :=
  match dataPoints with
  | [] => []
  | first :: rest =>
    let startDay := dayOf first.timestamp
    let endDay := dayOf ((first :: rest).getLast (by simp)).timestamp
    (fillGo endDay (endDay + 1 - startDay) startDay (first :: rest)).insertionSort
      (fun a b => a.timestamp ≤ b.timestamp)

/-- `useLiquidityHistory(liquidityEvents, swapEvents, poolData)` (the pure
pipeline inside the `useMemo`), with the `Date.now()` anchor explicit:
sort the events, replay them into the date map, sort the snapshots, merge in
`calculateDailyFees`, and gap-fill. -/
def useLiquidityHistory (liquidityEvents : List ModifyLiquidityEvent)
    (swapEvents : List SwapEvent) (poolData : Pool) (now : Nat) :
    List ExtendedChartDataPoint :=
  let sortedLiquidityEvents :=
    liquidityEvents.insertionSort (fun a b => a.timestamp ≤ b.timestamp)
  let sortedSwapEvents :=
    swapEvents.insertionSort (fun a b => a.timestamp ≤ b.timestamp)
  let dateMap :=
    processEventsIntoMap sortedLiquidityEvents sortedSwapEvents poolData now
  let sortedDataPoints :=
    (dateMap.map Prod.snd).insertionSort (fun a b => a.timestamp ≤ b.timestamp)
  let dailyFees := calculateDailyFees sortedSwapEvents poolData.feeTier
  let dailyDataPoints := combineDataWithFees sortedDataPoints dailyFees
  fillMissingDates dailyDataPoints

/-! ## Tick Histogram Builder (`src/lib/tickDataProcessor.ts`) -/

/-- A liquidity position (`Position`).  `liquidity = 0` models the falsy /
`"0"` strings the code skips; tick strings are their parsed integers. -/
structure Position where
  tickLower : Int
  tickUpper : Int
  liquidity : Int
  deriving Repr, DecidableEq

/-- Pool info consumed by the histogram builder.  `tickSpacing = 0` models a
falsy `tickSpacing` field, which the code replaces by the default `60`. -/
structure PoolInfo where
  tick : Int
  tickSpacing : Int
  deriving Repr, DecidableEq

/-- One histogram row (`TickData`), display-only price fields omitted. -/
structure TickData where
  tickIdx : Int
  liquidityNet : Int
  liquidityGross : Int
  deriving Repr, DecidableEq

/-- A zero-liquidity histogram row at `tickIdx`. -/
def emptyTick (tickIdx : Int) : TickData :=
  { tickIdx := tickIdx, liquidityNet := 0, liquidityGross := 0 }

/-- The effective tick spacing (`poolInfo?.tickSpacing ? parseInt(...) : 60`). -/
def effSpacing (poolInfo : PoolInfo) : Int :=
  if poolInfo.tickSpacing = 0 then 60 else poolInfo.tickSpacing

/-- Base tick of the scaffold window:
`Math.floor(currentTick / tickSpacing) * tickSpacing` (floor division). -/
def scaffoldBase (poolInfo : PoolInfo) : Int :=
  poolInfo.tick.fdiv (effSpacing poolInfo) * effSpacing poolInfo

/-- The scaffold tick for loop counter `j : 0..100`, i.e. window offset
`i = j - 50 : -50..50`:
`Math.floor(currentTick / tickSpacing) * tickSpacing + i * tickSpacing`. -/
def scaffoldTickAt (poolInfo : PoolInfo) (j : Nat) : Int :=
  scaffoldBase poolInfo + ((j : Int) - 50) * effSpacing poolInfo

/-- The `for (let i = -rangeSize; i <= rangeSize; i++)` scaffold loop with
`rangeSize = 50`: initialize a zero entry at each of the 101 window ticks. -/
def scaffoldMap (poolInfo : PoolInfo) : List (Int × TickData) :=
  (List.range 101).foldl
    (fun m j =>
      assocSet (scaffoldTickAt poolInfo j) (emptyTick (scaffoldTickAt poolInfo j)) m)
    []

/-- Lower-boundary half of the `positions.forEach` body: add the position's
liquidity at `tickLower` (net `+`, gross `+`), creating a zero entry when the
boundary tick is unseen. -/
def applyLowerTick (m : List (Int × TickData)) (position : Position) :
    List (Int × TickData) :=
  let lowerTick := (assocGet position.tickLower m).getD (emptyTick position.tickLower)
  assocSet position.tickLower
    { lowerTick with
      liquidityNet := lowerTick.liquidityNet + position.liquidity
      liquidityGross := lowerTick.liquidityGross + position.liquidity } m

/-- Upper-boundary half: subtract the position's liquidity from net at
`tickUpper`, add it to gross. -/
def applyUpperTick (m : List (Int × TickData)) (position : Position) :
    List (Int × TickData) :=
  let upperTick := (assocGet position.tickUpper m).getD (emptyTick position.tickUpper)
  assocSet position.tickUpper
    { upperTick with
      liquidityNet := upperTick.liquidityNet - position.liquidity
      liquidityGross := upperTick.liquidityGross + position.liquidity } m

/-- The `positions.forEach` body: skip zero liquidity, then process the lower
and the upper boundary tick. -/
def positionStep (m : List (Int × TickData)) (position : Position) :
    List (Int × TickData) :=
  if position.liquidity = 0 then m
  else applyUpperTick (applyLowerTick m position) position

/-- `generateTicksFromPositions(positions, poolInfo)`: `[]` on an empty
positions list, otherwise the 101-tick scaffold plus the position-boundary
contributions, sorted ascending by tick index. -/
def generateTicksFromPositions (positions : List Position)
    (poolInfo : PoolInfo) : List TickData :=
  if positions.isEmpty then []
  else
    let m := positions.foldl positionStep (scaffoldMap poolInfo)
    (m.map Prod.snd).insertionSort (fun a b => a.tickIdx ≤ b.tickIdx)

/-! ## Active-liquidity curve (`src/lib/liquidityMath.ts`) -/

/-- `ProcessedTickData`: a histogram row with the running active-liquidity
value attached. -/
structure ProcessedTickData where
  tickIdx : Int
  liquidityNet : Int
  liquidityGross : Int
  liquidityActive : Int
  liquidityDelta : Int
  deriving Repr, DecidableEq

/-- The accumulation loop of `calculateLiquidityDelta`. -/
def liquidityDeltaGo (currentLiquidity : Int) :
    List TickData → List ProcessedTickData
  | [] => []
  | tick :: rest =>
    let next := currentLiquidity + tick.liquidityNet
    { tickIdx := tick.tickIdx
      liquidityNet := tick.liquidityNet
      liquidityGross := tick.liquidityGross
      liquidityActive := next
      liquidityDelta := tick.liquidityNet } :: liquidityDeltaGo next rest

/-- `calculateLiquidityDelta(ticks)`: sort by tick index, then compute the
left-to-right cumulative sum of net liquidity (`liquidityActive`). -/
def calculateLiquidityDelta (ticks : List TickData) : List ProcessedTickData :=
  if ticks.isEmpty then []
  else
    liquidityDeltaGo 0
      (ticks.insertionSort (fun a b => a.tickIdx ≤ b.tickIdx))

/-! # Theorems

## The pagination stall guard (claim C10) -/

/-- A nonempty page whose last timestamp equals the running `lastTimestamp`
makes the loop stop before appending anything. -/
lemma fetchGo_stall {service : Service} {batchSize maxBatches batchCount : Nat}
    {acc : List SwapEvent} {lastTimestamp currentStartTime : Nat}
    {lastEvent : SwapEvent}
    (hlt : batchCount < maxBatches)
    (hpage : (service batchCount).getLast? = some lastEvent)
    (hts : lastEvent.timestamp = lastTimestamp) :
    fetchGo service batchSize maxBatches batchCount acc lastTimestamp
      currentStartTime = ⟨acc, batchCount + 1⟩ := by
  rw [fetchGo]
  simp only [hlt, if_true, hpage, hts]

/-- C10: when a fetched page is non-empty and its last record's timestamp
equals the previously recorded `lastTimestamp`, the fetch loop at any reached
state terminates normally, returning exactly the previously accumulated
records — no record of the stall-detected page is appended (even one not
previously returned), and the stall page's query is the final one. -/
theorem fetch_stall_returns_accumulated
    (service : Service) (batchSize maxBatches batchCount : Nat)
    (acc : List SwapEvent) (lastTimestamp currentStartTime : Nat)
    (lastEvent : SwapEvent)
    (hlt : batchCount < maxBatches)
    (hpage : (service batchCount).getLast? = some lastEvent)
    (hts : lastEvent.timestamp = lastTimestamp) :
    (fetchGo service batchSize maxBatches batchCount acc lastTimestamp
        currentStartTime).events = acc ∧
    (fetchGo service batchSize maxBatches batchCount acc lastTimestamp
        currentStartTime).calls = batchCount + 1 ∧
    ∀ ev ∈ service batchCount, ev ∉ acc →
      ev ∉ (fetchGo service batchSize maxBatches batchCount acc lastTimestamp
        currentStartTime).events := by
  rw [fetchGo_stall hlt hpage hts]
  exact ⟨rfl, rfl, fun ev _ hnot => hnot⟩

/-- Witness for C10: a concrete stalled service. -/
theorem fetch_stall_returns_accumulated_witness :
    (fetchGo (fun _ => [⟨10, 1, none, none⟩]) 5 7 3
        [⟨10, 2, none, none⟩] 10 11).events = [⟨10, 2, none, none⟩] ∧
    (fetchGo (fun _ => [⟨10, 1, none, none⟩]) 5 7 3
        [⟨10, 2, none, none⟩] 10 11).calls = 3 + 1 ∧
    ∀ ev ∈ [(⟨10, 1, none, none⟩ : SwapEvent)], ev ∉ [(⟨10, 2, none, none⟩ : SwapEvent)] →
      ev ∉ (fetchGo (fun _ => [⟨10, 1, none, none⟩]) 5 7 3
        [⟨10, 2, none, none⟩] 10 11).events :=
  fetch_stall_returns_accumulated (fun _ => [⟨10, 1, none, none⟩]) 5 7 3
    [⟨10, 2, none, none⟩] 10 11 ⟨10, 1, none, none⟩ (by decide) rfl rfl

/-! ## Full pages up to the cap (claim C5) -/

/-- Main induction for C5: from any reached state whose `lastTimestamp` is
below the next page's last timestamp, if every remaining page is full and
page-final timestamps strictly advance, the loop appends every remaining
page and stops only at the `maxBatches` cap. -/
lemma fetchGo_full_pages (service : Service) (batchSize maxBatches : Nat)
    (hsize : 0 < batchSize)
    (hfull : ∀ i, i < maxBatches → (service i).length = batchSize)
    (hmono : ∀ i, i + 1 < maxBatches →
      pageLast (service i) < pageLast (service (i + 1))) :
    ∀ n batchCount acc lastTimestamp currentStartTime,
      maxBatches - batchCount = n → batchCount ≤ maxBatches →
      (batchCount < maxBatches → lastTimestamp < pageLast (service batchCount)) →
      fetchGo service batchSize maxBatches batchCount acc lastTimestamp
          currentStartTime =
        ⟨acc ++ ((List.range' batchCount (maxBatches - batchCount)).map
            service).flatten, maxBatches⟩ := by
  intro n
  induction n with
  | zero =>
    intro batchCount acc lastTimestamp currentStartTime hn hle _
    have hbc : batchCount = maxBatches := by omega
    rw [fetchGo]
    simp [hbc]
  | succ n ih =>
    intro batchCount acc lastTimestamp currentStartTime hn hle hlast
    have hlt : batchCount < maxBatches := by omega
    have hlen : (service batchCount).length = batchSize := hfull _ hlt
    have hne : service batchCount ≠ [] := by
      intro h
      rw [h] at hlen
      simp at hlen
      omega
    obtain ⟨lastEvent, hgl⟩ :
        ∃ e, (service batchCount).getLast? = some e := by
      cases h : (service batchCount).getLast? with
      | none => exact absurd (List.getLast?_eq_none_iff.mp h) hne
      | some e => exact ⟨e, rfl⟩
    have hplast : pageLast (service batchCount) = lastEvent.timestamp := by
      simp [pageLast, hgl]
    have hneq : lastTimestamp ≠ lastEvent.timestamp := by
      have := hlast hlt
      omega
    rw [fetchGo]
    simp only [hlt, if_true, hgl]
    rw [if_neg hneq, if_neg (by omega : ¬ (service batchCount).length < batchSize)]
    rw [ih (batchCount + 1) (acc ++ service batchCount) lastEvent.timestamp
      (lastEvent.timestamp + 1) (by omega) (by omega)
      (fun h => by
        have := hmono batchCount h
        omega)]
    have hrange : List.range' batchCount (maxBatches - batchCount) =
        batchCount :: List.range' (batchCount + 1) (maxBatches - (batchCount + 1)) := by
      have : maxBatches - batchCount = (maxBatches - (batchCount + 1)) + 1 := by omega
      rw [this, List.range'_succ]
    rw [hrange]
    simp

/-- C5: if the service returns exactly `pageSize` records on every call, with
strictly advancing last timestamps (starting above the `lastTimestamp = 0`
"none yet" sentinel), up to `maxPages` calls, then `fetchAllSwapEvents`
queries the service exactly `maxPages` times and returns the in-order
concatenation of the pages — exactly `maxPages × pageSize` records. -/
theorem fetchAllSwapEvents_full_pages (service : Service)
    (startTime maxBatches batchSize : Nat)
    (hsize : 0 < batchSize)
    (hfull : ∀ i, i < maxBatches → (service i).length = batchSize)
    (hfirst : 0 < maxBatches → 0 < pageLast (service 0))
    (hmono : ∀ i, i + 1 < maxBatches →
      pageLast (service i) < pageLast (service (i + 1))) :
    (fetchAllSwapEvents service startTime maxBatches batchSize).calls =
        maxBatches ∧
    (fetchAllSwapEvents service startTime maxBatches batchSize).events =
        ((List.range maxBatches).map service).flatten ∧
    (fetchAllSwapEvents service startTime maxBatches batchSize).events.length =
        maxBatches * batchSize := by
  have h := fetchGo_full_pages service batchSize maxBatches hsize hfull hmono
    maxBatches 0 [] 0 startTime (by omega) (by omega) hfirst
  rw [fetchAllSwapEvents, h]
  refine ⟨rfl, by simp [List.range_eq_range'], ?_⟩
  simp only [List.nil_append, List.length_flatten]
  have hsum : ∀ n s, (s + n ≤ maxBatches) →
      (((List.range' s n).map service).map List.length).sum = n * batchSize := by
    intro n
    induction n with
    | zero => intro s _; simp
    | succ n ih =>
      intro s hs
      rw [List.range'_succ]
      simp only [List.map_cons, List.sum_cons]
      rw [ih (s + 1) (by omega), hfull s (by omega)]
      ring
  simpa using hsum maxBatches 0 (by omega)

/-- Witness for C5: three full pages of two records each. -/
theorem fetchAllSwapEvents_full_pages_witness :
    (fetchAllSwapEvents
        (fun i => [⟨10 * i + 1, 1, none, none⟩, ⟨10 * i + 2, 1, none, none⟩])
        0 3 2).calls = 3 ∧
    (fetchAllSwapEvents
        (fun i => [⟨10 * i + 1, 1, none, none⟩, ⟨10 * i + 2, 1, none, none⟩])
        0 3 2).events =
      ((List.range 3).map
        (fun i => [⟨10 * i + 1, 1, none, none⟩, ⟨10 * i + 2, 1, none, none⟩])).flatten ∧
    (fetchAllSwapEvents
        (fun i => [⟨10 * i + 1, 1, none, none⟩, ⟨10 * i + 2, 1, none, none⟩])
        0 3 2).events.length = 3 * 2 :=
  fetchAllSwapEvents_full_pages
    (fun i => [⟨10 * i + 1, 1, none, none⟩, ⟨10 * i + 2, 1, none, none⟩])
    0 3 2 (by decide) (fun i _ => rfl) (fun _ => by decide)
    (fun i hi => by
      have h : i = 0 ∨ i = 1 := by omega
      rcases h with h | h <;> subst h <;> decide)

/-! ## Short second page (claim C6)

The claim "a full first page and a short second page yield exactly two calls
and the concatenation of the two pages" fails when the second page is
non-empty but ends at the same timestamp as the first page: the stall guard
at `swapDataFetcher.ts:69` then discards the second page entirely. -/

/-- A service whose first page is full (`pageSize = 2`) and whose second page
is shorter but repeats the first page's final timestamp. -/
def c6StallService : Service := fun i =>
  if i = 0 then [⟨5, 1, none, none⟩, ⟨10, 1, none, none⟩]
  else if i = 1 then [⟨10, 2, none, none⟩] else []

/-- Counterexample to C6: the service returns a full page (2 = pageSize
records) on the first call and fewer (1) on the second, yet the result is
*not* the concatenation of the two pages — the stall guard drops the second
page (the fetch does stop after two calls, but returns only page one). -/
theorem fetch_short_second_page_counterexample :
    (c6StallService 0).length = 2 ∧
    (c6StallService 1).length < 2 ∧
    (fetchAllSwapEvents c6StallService 0 100 2).calls = 2 ∧
    (fetchAllSwapEvents c6StallService 0 100 2).events ≠
      c6StallService 0 ++ c6StallService 1 := by
  have hval : fetchAllSwapEvents c6StallService 0 100 2 =
      ⟨[⟨5, 1, none, none⟩, ⟨10, 1, none, none⟩], 2⟩ := by
    rw [fetchAllSwapEvents, fetchGo]
    norm_num [c6StallService]
    rw [fetchGo]
    norm_num [c6StallService]
  refine ⟨rfl, by decide, ?_, ?_⟩
  · rw [hval]
  · rw [hval]
    decide

/-- C6 (amended): if the service returns a full page on the first call (with
a nonzero final timestamp) and fewer than `pageSize` records on the second
call, and the second page is empty or ends at a timestamp different from the
first page's last, then `fetchAllSwapEvents` stops after exactly two service
calls and returns the concatenation of the two pages. -/
theorem fetchAllSwapEvents_short_second_page (service : Service)
    (startTime maxBatches batchSize : Nat)
    (hmax : 2 ≤ maxBatches)
    (hfull : (service 0).length = batchSize)
    (hfirst : 0 < pageLast (service 0))
    (hshort : (service 1).length < batchSize)
    (hsecond : service 1 = [] ∨ pageLast (service 1) ≠ pageLast (service 0)) :
    fetchAllSwapEvents service startTime maxBatches batchSize =
      ⟨service 0 ++ service 1, 2⟩ := by
  have hsize : 0 < batchSize := by omega
  have hne0 : service 0 ≠ [] := by
    intro h; rw [h] at hfull; simp at hfull; omega
  obtain ⟨e0, hgl0⟩ : ∃ e, (service 0).getLast? = some e := by
    cases h : (service 0).getLast? with
    | none => exact absurd (List.getLast?_eq_none_iff.mp h) hne0
    | some e => exact ⟨e, rfl⟩
  have hp0 : pageLast (service 0) = e0.timestamp := by simp [pageLast, hgl0]
  have hne_ts0 : ¬ (0 : Nat) = e0.timestamp := by omega
  have hnshort0 : ¬ (service 0).length < batchSize := by omega
  rw [fetchAllSwapEvents, fetchGo]
  simp only [show (0 : Nat) < maxBatches from by omega, if_true, hgl0]
  rw [if_neg hne_ts0, if_neg hnshort0]
  rw [fetchGo]
  simp only [show (1 : Nat) < maxBatches from by omega, if_true]
  by_cases hemp : service 1 = []
  · rw [hemp]
    simp
  · have hne1 : service 1 ≠ [] := hemp
    have h1 : pageLast (service 1) ≠ pageLast (service 0) :=
      hsecond.resolve_left hemp
    obtain ⟨e1, hgl1⟩ : ∃ e, (service 1).getLast? = some e := by
      cases h : (service 1).getLast? with
      | none => exact absurd (List.getLast?_eq_none_iff.mp h) hne1
      | some e => exact ⟨e, rfl⟩
    have hp1 : pageLast (service 1) = e1.timestamp := by simp [pageLast, hgl1]
    have hne_ts1 : ¬ e0.timestamp = e1.timestamp := by
      rw [← hp0, ← hp1]; exact fun h => h1 h.symm
    simp only [hgl1]
    rw [if_neg hne_ts1, if_pos hshort]
    simp

/-- Witness for the amended C6: first page full at timestamps 5, 10; second
page the single later record at 12. -/
theorem fetchAllSwapEvents_short_second_page_witness :
    fetchAllSwapEvents
        (fun i => if i = 0 then [⟨5, 1, none, none⟩, ⟨10, 1, none, none⟩]
          else if i = 1 then [⟨12, 2, none, none⟩] else [])
        0 100 2 =
      ⟨(fun i : Nat => if i = 0 then [⟨5, 1, none, none⟩, ⟨10, 1, none, none⟩]
          else if i = 1 then [(⟨12, 2, none, none⟩ : SwapEvent)] else []) 0 ++
        (fun i : Nat => if i = 0 then [⟨5, 1, none, none⟩, ⟨10, 1, none, none⟩]
          else if i = 1 then [(⟨12, 2, none, none⟩ : SwapEvent)] else []) 1, 2⟩ :=
  fetchAllSwapEvents_short_second_page _ 0 100 2 (by omega) rfl (by decide)
    (by decide) (Or.inr (by decide))

/-! ## Daily fee buckets (claim C7) -/

/-- A swap event is well formed for day `d` when neither skip guard of
`calculateDailyFees` fires and its calendar day is `d`. -/
def ValidForDay (d : Nat) (s : SwapEvent) : Prop :=
  s.timestamp ≠ 0 ∧ s.amountUSD ≠ 0 ∧ dayOf s.timestamp = d

/-- Folding further same-day valid events over a single-bucket map keeps a
single bucket and adds one to the count per event. -/
lemma dailyFees_foldl_single (feeRate : ℚ) (d : Nat) :
    ∀ (swaps : List SwapEvent) (b : DailyFeeData),
      (∀ s ∈ swaps, ValidForDay d s) →
      ∃ b', swaps.foldl (dailyFeesStep feeRate) [(d, b)] = [(d, b')] ∧
        b'.count = b.count + swaps.length ∧ b'.timestamp = b.timestamp := by
  intro swaps
  induction swaps with
  | nil => exact fun b _ => ⟨b, rfl, by simp, rfl⟩
  | cons s rest ih =>
    intro b hvalid
    obtain ⟨hts, hamt, hday⟩ := hvalid s (List.mem_cons_self _ _)
    have hstep : dailyFeesStep feeRate [(d, b)] s =
        [(d, { b with
            feeUSD := b.feeUSD + s.amountUSD * feeRate
            volumeUSD := b.volumeUSD + s.amountUSD
            count := b.count + 1 })] := by
      rw [dailyFeesStep]
      rw [if_neg hts, if_neg hamt]
      simp [hday, assocGet, assocSet]
    rw [List.foldl_cons, hstep]
    obtain ⟨b', hside, hcount, hts'⟩ :=
      ih _ (fun x hx => hvalid x (List.mem_cons_of_mem _ hx))
    exact ⟨b', hside, by simp [hcount]; omega, hts'⟩

/-- C7: `calculateDailyFees` of an empty swap list is the empty array, and of
a nonempty list of `N` well-formed events all on the same calendar day is a
single bucket whose `count` is `N`. -/
theorem calculateDailyFees_empty_and_single_day :
    (∀ feeTier : ℚ, calculateDailyFees [] feeTier = []) ∧
    (∀ (swaps : List SwapEvent) (feeTier : ℚ) (d : Nat),
      swaps ≠ [] → (∀ s ∈ swaps, ValidForDay d s) →
      ∃ b, calculateDailyFees swaps feeTier = [b] ∧ b.count = swaps.length) := by
  constructor
  · intro feeTier
    rfl
  · intro swaps feeTier d hne hvalid
    cases swaps with
    | nil => exact absurd rfl hne
    | cons s rest =>
      obtain ⟨hts, hamt, hday⟩ := hvalid s (List.mem_cons_self _ _)
      have hunfold : calculateDailyFees (s :: rest) feeTier =
          (((s :: rest).foldl (dailyFeesStep (feeTier / 1000000)) []).map
            Prod.snd).insertionSort (fun a b => a.timestamp ≤ b.timestamp) := rfl
      rw [hunfold]
      have hfirst : dailyFeesStep (feeTier / 1000000) [] s =
          [(d, { timestamp := dayStart s.timestamp
                 feeUSD := s.amountUSD * (feeTier / 1000000)
                 volumeUSD := s.amountUSD
                 count := 1 })] := by
        rw [dailyFeesStep]
        rw [if_neg hts, if_neg hamt]
        simp [hday, assocGet, assocSet]
      rw [List.foldl_cons, hfirst]
      obtain ⟨b', hside, hcount, _⟩ :=
        dailyFees_foldl_single (feeTier / 1000000) d rest _
          (fun x hx => hvalid x (List.mem_cons_of_mem _ hx))
      rw [hside]
      exact ⟨b', by simp [List.insertionSort], by simp [hcount]; omega⟩

/-- Witness for C7's same-day half: three valid events on epoch day 2. -/
theorem calculateDailyFees_single_day_witness :
    ([⟨172805, 5, none, none⟩, ⟨172822, 7, none, none⟩,
        ⟨172899, -1, none, none⟩] : List SwapEvent) ≠ [] ∧
    ∃ b, calculateDailyFees
        [⟨172805, 5, none, none⟩, ⟨172822, 7, none, none⟩,
          ⟨172899, -1, none, none⟩] 3000 = [b] ∧
      b.count = ([⟨172805, 5, none, none⟩, ⟨172822, 7, none, none⟩,
        ⟨172899, -1, none, none⟩] : List SwapEvent).length :=
  ⟨by decide,
    calculateDailyFees_empty_and_single_day.2
      [⟨172805, 5, none, none⟩, ⟨172822, 7, none, none⟩,
        ⟨172899, -1, none, none⟩] 3000 2 (by decide)
      (by
        intro s hs
        simp only [List.mem_cons, List.not_mem_nil, or_false] at hs
        rcases hs with h | h | h <;> subst h <;>
          exact ⟨by decide, by decide, by decide⟩)⟩

/-! ## Add/remove round trip (claim C8) -/

/-- C8: from any running state, applying a liquidity event with delta `+d`
and then one with delta `-d` (same day, same token amounts) returns the
running liquidity to exactly its prior value (exact `BigInt` arithmetic). -/
theorem applyLiquidityEvent_roundtrip (poolData : Pool) (s : ReplayState)
    (ts : Nat) (d : Int) (a0 a1 : ℚ) :
    (applyLiquidityEvent poolData
        (applyLiquidityEvent poolData s ⟨ts, some d, a0, a1⟩)
        ⟨ts, some (-d), a0, a1⟩).currentLiquidity = s.currentLiquidity := by
  simp only [applyLiquidityEvent]
  split <;> split <;> omega

/-! ## Association-list lemmas -/

/-- The key list of an association-list map. -/
def keysOf {κ α : Type} (m : List (κ × α)) : List κ := m.map Prod.fst

lemma mem_keys_assocSet_self {κ α : Type} [DecidableEq κ] (k : κ) (v : α) :
    ∀ m : List (κ × α), k ∈ keysOf (assocSet k v m) := by
  intro m
  induction m with
  | nil => simp [assocSet, keysOf]
  | cons p rest ih =>
    rw [assocSet]
    by_cases h : p.1 = k
    · simp [h, keysOf]
    · obtain ⟨k', v'⟩ := p
      simp only at h
      simp only [if_neg h, keysOf, List.map_cons, List.mem_cons]
      exact Or.inr ih

lemma mem_keys_assocSet_of_mem {κ α : Type} [DecidableEq κ] (k k' : κ) (v : α) :
    ∀ m : List (κ × α), k' ∈ keysOf m → k' ∈ keysOf (assocSet k v m) := by
  intro m
  induction m with
  | nil => simp [keysOf]
  | cons p rest ih =>
    obtain ⟨k0, v0⟩ := p
    intro hmem
    rw [assocSet]
    by_cases h : k0 = k
    · simp only [if_pos h]
      simp only [keysOf, List.map_cons, List.mem_cons] at hmem ⊢
      rcases hmem with h' | h'
      · exact Or.inl (h' ▸ h)
      · exact Or.inr h'
    · simp only [if_neg h]
      simp only [keysOf, List.map_cons, List.mem_cons] at hmem ⊢
      rcases hmem with h' | h'
      · exact Or.inl h'
      · exact Or.inr (ih h')

lemma mem_assocSet {κ α : Type} [DecidableEq κ] {k : κ} {v : α} :
    ∀ {m : List (κ × α)} {p : κ × α}, p ∈ assocSet k v m → p = (k, v) ∨ p ∈ m := by
  intro m
  induction m with
  | nil => intro p hp; simp [assocSet] at hp; exact Or.inl hp
  | cons q rest ih =>
    obtain ⟨k0, v0⟩ := q
    intro p hp
    rw [assocSet] at hp
    by_cases h : k0 = k
    · simp only [if_pos h, List.mem_cons] at hp
      rcases hp with h' | h'
      · exact Or.inl h'
      · exact Or.inr (List.mem_cons_of_mem _ h')
    · simp only [if_neg h, List.mem_cons] at hp
      rcases hp with h' | h'
      · exact Or.inr (h' ▸ List.mem_cons_self _ _)
      · rcases ih h' with h'' | h''
        · exact Or.inl h''
        · exact Or.inr (List.mem_cons_of_mem _ h'')

lemma assocGet_mem {κ α : Type} [DecidableEq κ] {k : κ} {v : α} :
    ∀ {m : List (κ × α)}, assocGet k m = some v → (k, v) ∈ m := by
  intro m
  induction m with
  | nil => intro h; simp [assocGet] at h
  | cons q rest ih =>
    obtain ⟨k0, v0⟩ := q
    intro h
    rw [assocGet] at h
    by_cases h0 : k0 = k
    · simp only [if_pos h0, Option.some.injEq] at h
      subst h0 h
      exact List.mem_cons_self _ _
    · simp only [if_neg h0] at h
      exact List.mem_cons_of_mem _ (ih h)

lemma keysOf_assocSet_nodup {κ α : Type} [DecidableEq κ] (k : κ) (v : α) :
    ∀ m : List (κ × α), (keysOf m).Nodup → (keysOf (assocSet k v m)).Nodup := by
  intro m
  induction m with
  | nil => intro _; simp [assocSet, keysOf]
  | cons q rest ih =>
    obtain ⟨k0, v0⟩ := q
    intro hnd
    simp only [keysOf, List.map_cons, List.nodup_cons] at hnd
    rw [assocSet]
    by_cases h : k0 = k
    · simp only [if_pos h, keysOf, List.map_cons, List.nodup_cons]
      rw [h] at hnd
      exact hnd
    · simp only [if_neg h, keysOf, List.map_cons, List.nodup_cons]
      refine ⟨?_, ih hnd.2⟩
      intro hc
      have : ∀ k', k' ∈ keysOf (assocSet k v rest) → k' = k ∨ k' ∈ keysOf rest := by
        intro k' hk'
        simp only [keysOf, List.mem_map] at hk'
        obtain ⟨p, hp, hpk⟩ := hk'
        rcases mem_assocSet hp with h' | h'
        · exact Or.inl (by rw [← hpk, h'])
        · refine Or.inr ?_
          simp only [keysOf, List.mem_map]
          exact ⟨p, h', hpk⟩
      rcases this k0 hc with h' | h'
      · exact h h'
      · exact hnd.1 (by simpa [keysOf] using h')

/-- A membership-preserving fold: any step that keeps every existing key
keeps every key of the initial map. -/
lemma keys_mono_foldl {κ α β : Type}
    (step : List (κ × α) → β → List (κ × α))
    (hpres : ∀ m b k, k ∈ keysOf m → k ∈ keysOf (step m b)) :
    ∀ (L : List β) (m : List (κ × α)) (k : κ),
      k ∈ keysOf m → k ∈ keysOf (L.foldl step m) := by
  intro L
  induction L with
  | nil => intro m k h; simpa using h
  | cons b rest ih =>
    intro m k h
    exact ih (step m b) k (hpres m b k h)

/-- A value-property-preserving fold. -/
lemma values_prop_foldl {κ α β : Type}
    (step : List (κ × α) → β → List (κ × α)) (P : κ × α → Prop)
    (hpres : ∀ m b, (∀ p ∈ m, P p) → ∀ p ∈ step m b, P p) :
    ∀ (L : List β) (m : List (κ × α)),
      (∀ p ∈ m, P p) → ∀ p ∈ L.foldl step m, P p := by
  intro L
  induction L with
  | nil => intro m h; simpa using h
  | cons b rest ih =>
    intro m h
    exact ih (step m b) (hpres m b h)

/-! ## Tick histogram of an empty positions list (claim C2) -/

/-- Counterexample to C2: with no positions the builder returns the empty
array (`tickDataProcessor.ts:37`), not a non-empty 101-tick scaffold. -/
theorem tick_histogram_empty_positions_counterexample :
    generateTicksFromPositions [] ⟨0, 60⟩ = [] := rfl

/-- C2 (amended): if the positions list is empty the builder returns the
empty array; the 101-tick scaffold is only generated for a non-empty
positions list. -/
theorem generateTicksFromPositions_nil (poolInfo : PoolInfo) :
    generateTicksFromPositions [] poolInfo = [] := rfl

/-! ## The scaffold window inside a non-empty histogram (claim C9) -/

lemma effSpacing_ne_zero (poolInfo : PoolInfo) : effSpacing poolInfo ≠ 0 := by
  rw [effSpacing]
  split <;> simp_all

/-- Keys inserted by an `assocSet` fold are keys of the result. -/
lemma mem_keys_foldl_assocSet {κ α β : Type} [DecidableEq κ]
    (f : β → κ) (g : β → α) :
    ∀ (L : List β) (m : List (κ × α)) (b : β), b ∈ L →
      f b ∈ keysOf (L.foldl (fun m x => assocSet (f x) (g x) m) m) := by
  intro L
  induction L with
  | nil => intro m b h; simp at h
  | cons x rest ih =>
    intro m b hb
    rw [List.foldl_cons]
    rcases List.mem_cons.mp hb with h | h
    · subst h
      exact keys_mono_foldl _ (fun m' x' k hk => mem_keys_assocSet_of_mem _ _ _ _ hk)
        rest _ _ (mem_keys_assocSet_self _ _ _)
    · exact ih _ b h

/-- `positionStep` never removes a key. -/
lemma positionStep_keys_mono (m : List (Int × TickData)) (p : Position)
    (k : Int) (hk : k ∈ keysOf m) : k ∈ keysOf (positionStep m p) := by
  rw [positionStep]
  split
  · exact hk
  · exact mem_keys_assocSet_of_mem _ _ _ _
      (mem_keys_assocSet_of_mem _ _ _ _ hk)

/-- Every entry of the maps built by the histogram has its value's `tickIdx`
equal to its key. -/
def TickKeyed (p : Int × TickData) : Prop := p.2.tickIdx = p.1

lemma scaffoldMap_tickKeyed (poolInfo : PoolInfo) :
    ∀ p ∈ scaffoldMap poolInfo, TickKeyed p := by
  rw [scaffoldMap]
  refine values_prop_foldl
    (fun m j =>
      assocSet (scaffoldTickAt poolInfo j) (emptyTick (scaffoldTickAt poolInfo j)) m)
    TickKeyed ?_ (List.range 101) [] (by simp)
  intro m j hm p hp
  rcases mem_assocSet hp with h | h
  · rw [h]; rfl
  · exact hm p h

lemma tickKeyed_assocSet (m : List (Int × TickData)) (k : Int) (v : TickData)
    (hv : v.tickIdx = k) (hm : ∀ p ∈ m, TickKeyed p) :
    ∀ p ∈ assocSet k v m, TickKeyed p := by
  intro p hp
  rcases mem_assocSet hp with h | h
  · rw [h]; exact hv
  · exact hm p h

lemma getD_tickIdx (m : List (Int × TickData)) (k : Int)
    (hm : ∀ p ∈ m, TickKeyed p) :
    ((assocGet k m).getD (emptyTick k)).tickIdx = k := by
  cases hg : assocGet k m with
  | none => rfl
  | some v => simpa using hm _ (assocGet_mem hg)

lemma applyLowerTick_tickKeyed (m : List (Int × TickData)) (pos : Position)
    (hm : ∀ p ∈ m, TickKeyed p) : ∀ p ∈ applyLowerTick m pos, TickKeyed p := by
  rw [applyLowerTick]
  exact tickKeyed_assocSet _ _ _ (getD_tickIdx m pos.tickLower hm) hm

lemma applyUpperTick_tickKeyed (m : List (Int × TickData)) (pos : Position)
    (hm : ∀ p ∈ m, TickKeyed p) : ∀ p ∈ applyUpperTick m pos, TickKeyed p := by
  rw [applyUpperTick]
  exact tickKeyed_assocSet _ _ _ (getD_tickIdx m pos.tickUpper hm) hm

lemma positionStep_tickKeyed (m : List (Int × TickData)) (pos : Position)
    (hm : ∀ p ∈ m, TickKeyed p) : ∀ p ∈ positionStep m pos, TickKeyed p := by
  rw [positionStep]
  split
  · exact hm
  · exact applyUpperTick_tickKeyed _ _ (applyLowerTick_tickKeyed _ _ hm)

/-- Every scaffold tick is a key of the scaffold map. -/
lemma scaffoldTickAt_mem_keys (poolInfo : PoolInfo) (j : Nat)
    (hj : j < 101) : scaffoldTickAt poolInfo j ∈ keysOf (scaffoldMap poolInfo) := by
  rw [scaffoldMap]
  exact mem_keys_foldl_assocSet (scaffoldTickAt poolInfo)
    (fun j => emptyTick (scaffoldTickAt poolInfo j)) (List.range 101) [] j
    (List.mem_range.mpr hj)

/-- `scaffoldTickAt` is injective in the loop counter. -/
lemma scaffoldTickAt_injective (poolInfo : PoolInfo) :
    Function.Injective (scaffoldTickAt poolInfo) := by
  intro a b h
  rw [scaffoldTickAt, scaffoldTickAt] at h
  have h2 : ((a : Int) - 50) * effSpacing poolInfo =
      ((b : Int) - 50) * effSpacing poolInfo := by omega
  have h3 : ((a : Int) - 50) = ((b : Int) - 50) :=
    mul_right_cancel₀ (effSpacing_ne_zero poolInfo) h2
  omega

/-- C9: for a non-empty positions list the histogram always contains the
full 101-tick scaffold window: for every offset `-50 ≤ i ≤ 50` there is an
entry whose tick is `floor(currentTick / tickSpacing) * tickSpacing +
i * tickSpacing`, and the output has at least 101 entries. -/
theorem tick_histogram_contains_scaffold (positions : List Position)
    (poolInfo : PoolInfo) (hne : positions ≠ []) :
    (∀ i : Int, -50 ≤ i → i ≤ 50 →
      ∃ t ∈ generateTicksFromPositions positions poolInfo,
        t.tickIdx = scaffoldBase poolInfo + i * effSpacing poolInfo) ∧
    101 ≤ (generateTicksFromPositions positions poolInfo).length := by
  obtain ⟨pos0, rest, rfl⟩ : ∃ p r, positions = p :: r := by
    cases positions with
    | nil => exact absurd rfl hne
    | cons p r => exact ⟨p, r, rfl⟩
  have hunfold : generateTicksFromPositions (pos0 :: rest) poolInfo =
      (((pos0 :: rest).foldl positionStep (scaffoldMap poolInfo)).map
        Prod.snd).insertionSort (fun a b => a.tickIdx ≤ b.tickIdx) := rfl
  set mfin := (pos0 :: rest).foldl positionStep (scaffoldMap poolInfo) with hmfin
  have hkeys : ∀ j : Nat, j < 101 →
      scaffoldTickAt poolInfo j ∈ keysOf mfin := by
    intro j hj
    exact keys_mono_foldl positionStep positionStep_keys_mono (pos0 :: rest) _ _
      (scaffoldTickAt_mem_keys poolInfo j hj)
  have hkeyed : ∀ p ∈ mfin, TickKeyed p :=
    values_prop_foldl positionStep TickKeyed positionStep_tickKeyed
      (pos0 :: rest) _ (scaffoldMap_tickKeyed poolInfo)
  constructor
  · intro i h1 h2
    have hj : ((i + 50).toNat) < 101 := by omega
    have hkey := hkeys _ hj
    have hval : scaffoldTickAt poolInfo ((i + 50).toNat) =
        scaffoldBase poolInfo + i * effSpacing poolInfo := by
      rw [scaffoldTickAt]
      have : (((i + 50).toNat : Int)) = i + 50 := by omega
      rw [this]
      ring_nf
    rw [hval] at hkey
    simp only [keysOf, List.mem_map] at hkey
    obtain ⟨p, hp, hpk⟩ := hkey
    refine ⟨p.2, ?_, ?_⟩
    · rw [hunfold]
      rw [List.mem_insertionSort]
      exact List.mem_map_of_mem Prod.snd hp
    · rw [hkeyed p hp, hpk]
  · have hlen : (generateTicksFromPositions (pos0 :: rest) poolInfo).length =
        mfin.length := by
      rw [hunfold, List.length_insertionSort, List.length_map]
    rw [hlen]
    have hsub : ((List.range 101).map (scaffoldTickAt poolInfo)).toFinset ⊆
        (keysOf mfin).toFinset := by
      intro x hx
      rw [List.mem_toFinset] at hx ⊢
      obtain ⟨j, hj, rfl⟩ := List.mem_map.mp hx
      exact hkeys j (List.mem_range.mp hj)
    have hnd : ((List.range 101).map (scaffoldTickAt poolInfo)).Nodup :=
      (List.nodup_range 101).map (scaffoldTickAt_injective poolInfo)
    have hcard1 : ((List.range 101).map (scaffoldTickAt poolInfo)).toFinset.card
        = 101 := by
      rw [List.toFinset_card_of_nodup hnd, List.length_map, List.length_range]
    have hcard2 := Finset.card_le_card hsub
    have hcard3 := List.toFinset_card_le (l := keysOf mfin)
    have : (keysOf mfin).length = mfin.length := List.length_map _ _
    omega

/-- Witness for C9: a single narrow position still yields the full window. -/
theorem tick_histogram_contains_scaffold_witness :
    ([(⟨100, 200, 50⟩ : Position)] ≠ []) ∧
    (∀ i : Int, -50 ≤ i → i ≤ 50 →
      ∃ t ∈ generateTicksFromPositions [⟨100, 200, 50⟩] ⟨0, 60⟩,
        t.tickIdx = scaffoldBase ⟨0, 60⟩ + i * effSpacing ⟨0, 60⟩) ∧
    101 ≤ (generateTicksFromPositions [⟨100, 200, 50⟩] ⟨0, 60⟩).length :=
  ⟨by simp,
    (tick_histogram_contains_scaffold [⟨100, 200, 50⟩] ⟨0, 60⟩ (by simp)).1,
    (tick_histogram_contains_scaffold [⟨100, 200, 50⟩] ⟨0, 60⟩ (by simp)).2⟩

/-! ## The single-position histogram example (claim C4) -/

set_option maxHeartbeats 4000000 in
set_option maxRecDepth 100000 in
/-- C4: for the single position `{tickLower: 100, tickUpper: 200,
liquidity: 50}` with tick spacing 60 (current tick 0), the histogram has net
liquidity `+50` at tick 100 and `−50` at tick 200, and the running
active-liquidity curve (left-to-right cumulative sum of net liquidity over
the sorted ticks, `calculateLiquidityDelta`) is 0 at every tick below 100,
50 at every tick from 100 up to but excluding 200, and 0 at tick 200 and
above. -/
theorem tick_histogram_single_position :
    (∃ t ∈ generateTicksFromPositions [⟨100, 200, 50⟩] ⟨0, 60⟩,
      t.tickIdx = 100 ∧ t.liquidityNet = 50) ∧
    (∃ t ∈ generateTicksFromPositions [⟨100, 200, 50⟩] ⟨0, 60⟩,
      t.tickIdx = 200 ∧ t.liquidityNet = -50) ∧
    (∀ p ∈ calculateLiquidityDelta
        (generateTicksFromPositions [⟨100, 200, 50⟩] ⟨0, 60⟩),
      (p.tickIdx < 100 → p.liquidityActive = 0) ∧
      (100 ≤ p.tickIdx → p.tickIdx < 200 → p.liquidityActive = 50) ∧
      (200 ≤ p.tickIdx → p.liquidityActive = 0)) := by decide

/-! ## Nonnegativity of the reconstructed series (claim C1)

The replay clamps the token balances at zero (`Math.max(0, ...)`,
`eventsProcessor.ts:85-86`) but never clamps `currentLiquidity`: a removal
exceeding the running liquidity drives the displayed `liquidity` negative. -/

set_option maxRecDepth 10000 in
/-- Counterexample to C1: a single liquidity-removal event (delta
`-2000000`) replayed from the zero-initialized state yields a series point
with `liquidity = -2 < 0`. -/
theorem liquidity_negative_counterexample :
    ∃ p ∈ useLiquidityHistory [⟨0, some (-2000000), 0, 0⟩] []
        ⟨0, 0, 0, 0, 3000⟩ 7776000, p.liquidity < 0 := by
  have hmap : (useLiquidityHistory [⟨0, some (-2000000), 0, 0⟩] []
      ⟨0, 0, 0, 0, 3000⟩ 7776000).map (fun p => p.liquidity) =
      [formatLiquidity (-2000000)] := rfl
  have hneg : formatLiquidity (-2000000) < 0 := by norm_num [formatLiquidity]
  cases hout : useLiquidityHistory [⟨0, some (-2000000), 0, 0⟩] []
      ⟨0, 0, 0, 0, 3000⟩ 7776000 with
  | nil => rw [hout] at hmap; simp at hmap
  | cons p rest =>
    rw [hout] at hmap
    simp only [List.map_cons, List.cons.injEq] at hmap
    exact ⟨p, List.mem_cons_self _ _, by rw [hmap.1]; exact hneg⟩

/-- Generic `foldl` invariant. -/
lemma foldl_inv {σ β : Type} (step : σ → β → σ) (Inv : σ → Prop)
    (hstep : ∀ s b, Inv s → Inv (step s b)) :
    ∀ (L : List β) (s : σ), Inv s → Inv (L.foldl step s) := by
  intro L
  induction L with
  | nil => intro s h; simpa using h
  | cons b rest ih => intro s h; exact ih (step s b) (hstep s b h)

/-- Generic `assocSet` all-entries property. -/
lemma assocSet_forall {κ α : Type} [DecidableEq κ] (P : κ × α → Prop)
    (k : κ) (v : α) (m : List (κ × α)) (hv : P (k, v))
    (hm : ∀ p ∈ m, P p) : ∀ p ∈ assocSet k v m, P p := by
  intro p hp
  rcases mem_assocSet hp with h | h
  · rw [h]; exact hv
  · exact hm p h

/-- Nonnegative running token balances and TVL. -/
def SInv (s : ReplayState) : Prop :=
  0 ≤ s.currentToken0 ∧ 0 ≤ s.currentToken1 ∧ 0 ≤ s.currentTvlUSD

/-- Nonnegative token balances and TVL of a stored snapshot. -/
def PInv (p : LiquidityDataPoint) : Prop :=
  0 ≤ p.token0Amount ∧ 0 ≤ p.token1Amount ∧ 0 ≤ p.tvlUSD

/-- Nonnegative token balances and TVL of an output point. -/
def EInv (p : ExtendedChartDataPoint) : Prop :=
  0 ≤ p.token0Amount ∧ 0 ≤ p.token1Amount ∧ 0 ≤ p.tvlUSD

lemma applyLiquidityEvent_sInv (poolData : Pool) (s : ReplayState)
    (event : ModifyLiquidityEvent)
    (hp0 : 0 ≤ poolData.token0Price) (hp1 : 0 ≤ poolData.token1Price)
    (hs : SInv s) : SInv (applyLiquidityEvent poolData s event) := by
  obtain ⟨h0, h1, htvl⟩ := hs
  rw [applyLiquidityEvent]
  cases event.liquidityDelta with
  | none => exact ⟨h0, h1, htvl⟩
  | some d =>
    by_cases hd : d < 0 <;>
      simp only [hd, if_true, if_false] <;>
      refine ⟨?_, ?_, ?_⟩
    · exact le_max_left 0 _
    · exact le_max_left 0 _
    · exact add_nonneg (mul_nonneg (le_max_left 0 _) hp0)
        (mul_nonneg (le_max_left 0 _) hp1)
    · exact add_nonneg h0 (abs_nonneg _)
    · exact add_nonneg h1 (abs_nonneg _)
    · exact add_nonneg
        (mul_nonneg (add_nonneg h0 (abs_nonneg _)) hp0)
        (mul_nonneg (add_nonneg h1 (abs_nonneg _)) hp1)

lemma mkPoint_pInv (k : Nat) (s : ReplayState) (hs : SInv s) :
    PInv (mkPoint k s) := hs

/-- Combined invariant of the replay accumulator. -/
def AccInv (acc : List (Nat × LiquidityDataPoint) × ReplayState) : Prop :=
  (∀ p ∈ acc.1, PInv p.2) ∧ SInv acc.2

lemma liqStep_accInv (poolData : Pool)
    (hp0 : 0 ≤ poolData.token0Price) (hp1 : 0 ≤ poolData.token1Price)
    (acc : List (Nat × LiquidityDataPoint) × ReplayState)
    (event : ModifyLiquidityEvent) (h : AccInv acc) :
    AccInv (liqStep poolData acc event) := by
  obtain ⟨hm, hs⟩ := h
  have hs' : SInv (applyLiquidityEvent poolData acc.2 event) :=
    applyLiquidityEvent_sInv poolData acc.2 event hp0 hp1 hs
  exact ⟨assocSet_forall (fun p => PInv p.2) _ _ _ (mkPoint_pInv _ _ hs') hm, hs'⟩

lemma swapStep_accInv (acc : List (Nat × LiquidityDataPoint) × ReplayState)
    (swap : SwapEvent) (h : AccInv acc) : AccInv (swapStep acc swap) := by
  obtain ⟨hm, hs⟩ := h
  have hs' : SInv { acc.2 with
      currentTick := swap.tick.getD acc.2.currentTick
      currentSqrtPrice := swap.sqrtPriceX96.getD acc.2.currentSqrtPrice } := hs
  rw [swapStep]
  cases hg : assocGet (dayOf swap.timestamp) acc.1 with
  | some dataPoint =>
    have hdp : PInv dataPoint := hm _ (assocGet_mem hg)
    exact ⟨assocSet_forall (fun p => PInv p.2) _ _ _ hdp hm, hs'⟩
  | none =>
    exact ⟨assocSet_forall (fun p => PInv p.2) _ _ _ (mkPoint_pInv _ _ hs') hm, hs'⟩

lemma processEventsIntoMap_pInv (liquidityEvents : List ModifyLiquidityEvent)
    (swapEvents : List SwapEvent) (poolData : Pool) (now : Nat)
    (hp0 : 0 ≤ poolData.token0Price) (hp1 : 0 ≤ poolData.token1Price) :
    ∀ p ∈ processEventsIntoMap liquidityEvents swapEvents poolData now,
      PInv p.2 := by
  have hEq : processEventsIntoMap liquidityEvents swapEvents poolData now =
      (((swapEvents.filter
          (fun e => now - lookbackSeconds ≤ e.timestamp)).insertionSort
            (fun a b => a.timestamp ≤ b.timestamp)).foldl swapStep
        (((liquidityEvents.filter
            (fun e => now - lookbackSeconds ≤ e.timestamp)).insertionSort
              (fun a b => a.timestamp ≤ b.timestamp)).foldl (liqStep poolData)
          (assocSet (dayOf (now - lookbackSeconds))
            (mkPoint (dayOf (now - lookbackSeconds))
              ⟨0, 0, 0, 0, poolData.tick, poolData.sqrtPrice⟩) [],
           ⟨0, 0, 0, 0, poolData.tick, poolData.sqrtPrice⟩))).1 := rfl
  rw [hEq]
  have hs0 : SInv (⟨0, 0, 0, 0, poolData.tick, poolData.sqrtPrice⟩ :
      ReplayState) := ⟨le_refl 0, le_refl 0, le_refl 0⟩
  have hm0 : AccInv (assocSet (dayOf (now - lookbackSeconds))
      (mkPoint (dayOf (now - lookbackSeconds))
        ⟨0, 0, 0, 0, poolData.tick, poolData.sqrtPrice⟩) [],
      ⟨0, 0, 0, 0, poolData.tick, poolData.sqrtPrice⟩) :=
    ⟨assocSet_forall (fun p => PInv p.2) _ _ _ (mkPoint_pInv _ _ hs0)
      (by simp), hs0⟩
  have h1 := foldl_inv (liqStep poolData) AccInv
    (liqStep_accInv poolData hp0 hp1)
    ((liquidityEvents.filter
      (fun e => now - lookbackSeconds ≤ e.timestamp)).insertionSort
        (fun a b => a.timestamp ≤ b.timestamp)) _ hm0
  have h2 := foldl_inv swapStep AccInv swapStep_accInv
    ((swapEvents.filter
      (fun e => now - lookbackSeconds ≤ e.timestamp)).insertionSort
        (fun a b => a.timestamp ≤ b.timestamp)) _ h1
  exact h2.1

lemma fillGo_forall (Q : ExtendedChartDataPoint → Prop)
    (hQ : ∀ c prev, Q prev → Q (mkFilledPoint c prev)) :
    ∀ (fuel curDay endDay : Nat) (filled : List ExtendedChartDataPoint),
      (∀ p ∈ filled, Q p) → ∀ p ∈ fillGo endDay fuel curDay filled, Q p := by
  intro fuel
  induction fuel with
  | zero => intro curDay endDay filled h; simpa [fillGo] using h
  | succ fuel ih =>
    intro curDay endDay filled h
    rw [fillGo]
    split
    · refine ih (curDay + 1) endDay (fillStep curDay filled) ?_
      rw [fillStep]
      split
      · exact h
      · cases hf : filled.find? (fun point => dayOf point.timestamp = curDay - 1) with
        | none => exact h
        | some previousData =>
          intro p hp
          rcases List.mem_append.mp hp with h' | h'
          · exact h p h'
          · have hprev : Q previousData := h _ (List.mem_of_find?_eq_some hf)
            rw [List.mem_singleton.mp h']
            exact hQ _ _ hprev
    · exact h

/-- C1 (amended): for every input and pool metadata with nonnegative token
prices, every point of the reconstructed daily series has token balances
`≥ 0` (the `Math.max(0, ...)` clamps) and `tvlUSD ≥ 0`; the `liquidity`
field is *not* clamped and can go negative (see the counterexample). -/
theorem reconstructed_series_nonneg (liquidityEvents : List ModifyLiquidityEvent)
    (swapEvents : List SwapEvent) (poolData : Pool) (now : Nat)
    (hp0 : 0 ≤ poolData.token0Price) (hp1 : 0 ≤ poolData.token1Price) :
    ∀ p ∈ useLiquidityHistory liquidityEvents swapEvents poolData now,
      0 ≤ p.token0Amount ∧ 0 ≤ p.token1Amount ∧ 0 ≤ p.tvlUSD := by
  rw [useLiquidityHistory]
  intro p hp
  have hmap := processEventsIntoMap_pInv
    (liquidityEvents.insertionSort (fun a b => a.timestamp ≤ b.timestamp))
    (swapEvents.insertionSort (fun a b => a.timestamp ≤ b.timestamp))
    poolData now hp0 hp1
  have hsorted : ∀ q ∈ (((processEventsIntoMap
      (liquidityEvents.insertionSort (fun a b => a.timestamp ≤ b.timestamp))
      (swapEvents.insertionSort (fun a b => a.timestamp ≤ b.timestamp))
      poolData now).map Prod.snd).insertionSort
        (fun a b => a.timestamp ≤ b.timestamp)), PInv q := by
    intro q hq
    rw [List.mem_insertionSort] at hq
    obtain ⟨kv, hkv, rfl⟩ := List.mem_map.mp hq
    exact hmap kv hkv
  have hcombined : ∀ q ∈ combineDataWithFees
      (((processEventsIntoMap
        (liquidityEvents.insertionSort (fun a b => a.timestamp ≤ b.timestamp))
        (swapEvents.insertionSort (fun a b => a.timestamp ≤ b.timestamp))
        poolData now).map Prod.snd).insertionSort
          (fun a b => a.timestamp ≤ b.timestamp))
      (calculateDailyFees
        (swapEvents.insertionSort (fun a b => a.timestamp ≤ b.timestamp))
        poolData.feeTier), EInv q := by
    intro q hq
    rw [combineDataWithFees] at hq
    obtain ⟨dp, hdp, rfl⟩ := List.mem_map.mp hq
    have := hsorted dp hdp
    cases hfind : List.find?
        (fun fee => fee.timestamp = dp.timestamp)
        (calculateDailyFees
          (swapEvents.insertionSort (fun a b => a.timestamp ≤ b.timestamp))
          poolData.feeTier) <;>
      simp only [hfind] <;> exact this
  revert p hp
  generalize hL : combineDataWithFees _ _ = L at hcombined ⊢
  intro p hp
  cases L with
  | nil => rw [fillMissingDates] at hp; simp at hp
  | cons first rest =>
    rw [fillMissingDates] at hp
    rw [List.mem_insertionSort] at hp
    exact fillGo_forall EInv (fun c prev hprev => ⟨hprev.1, hprev.2.1, hprev.2.2⟩)
      _ _ _ _ hcombined p hp

/-- Witness for the amended C1: one add event, nonnegative prices. -/
theorem reconstructed_series_nonneg_witness :
    (0 : ℚ) ≤ 1 ∧ (0 : ℚ) ≤ 2 ∧
    ∀ p ∈ useLiquidityHistory [⟨0, some 5000000, 3, 4⟩] []
        ⟨0, 0, 1, 2, 3000⟩ 7776000,
      0 ≤ p.token0Amount ∧ 0 ≤ p.token1Amount ∧ 0 ≤ p.tvlUSD :=
  ⟨by norm_num, by norm_num,
    reconstructed_series_nonneg [⟨0, some 5000000, 3, 4⟩] []
      ⟨0, 0, 1, 2, 3000⟩ 7776000 (by norm_num) (by norm_num)⟩

/-! ## Density of the reconstructed series (claim C3)

The date map keys every snapshot by its calendar day and stores the day's
midnight as its timestamp; gap-filling then walks every day between the
first and last snapshot.  We show the final sorted series steps by exactly
one day (86400 s) between consecutive points. -/

/-- Map invariant for the replay: every stored snapshot's timestamp is the
midnight of its day key, and the day keys are distinct. -/
def DayKeyed (m : List (Nat × LiquidityDataPoint)) : Prop :=
  (∀ p ∈ m, p.2.timestamp = p.1 * secPerDay) ∧ (keysOf m).Nodup

/-- Accumulator-level version of `DayKeyed`. -/
def DayKeyedAcc (acc : List (Nat × LiquidityDataPoint) × ReplayState) : Prop :=
  DayKeyed acc.1

lemma dayKeyed_assocSet_mkPoint (m : List (Nat × LiquidityDataPoint))
    (k : Nat) (s : ReplayState) (h : DayKeyed m) :
    DayKeyed (assocSet k (mkPoint k s) m) :=
  ⟨assocSet_forall
      (fun p : Nat × LiquidityDataPoint => p.2.timestamp = p.1 * secPerDay)
      _ _ _ rfl h.1,
    keysOf_assocSet_nodup _ _ _ h.2⟩

lemma liqStep_dayKeyed (poolData : Pool)
    (acc : List (Nat × LiquidityDataPoint) × ReplayState)
    (event : ModifyLiquidityEvent) (h : DayKeyedAcc acc) :
    DayKeyedAcc (liqStep poolData acc event) :=
  dayKeyed_assocSet_mkPoint _ _ _ h

lemma swapStep_dayKeyed (acc : List (Nat × LiquidityDataPoint) × ReplayState)
    (swap : SwapEvent) (h : DayKeyedAcc acc) :
    DayKeyedAcc (swapStep acc swap) := by
  rw [DayKeyedAcc, swapStep]
  cases hg : assocGet (dayOf swap.timestamp) acc.1 with
  | some dataPoint =>
    have hdp : dataPoint.timestamp = dayOf swap.timestamp * secPerDay :=
      h.1 _ (assocGet_mem hg)
    exact ⟨assocSet_forall
        (fun p : Nat × LiquidityDataPoint => p.2.timestamp = p.1 * secPerDay)
        _ _ _ hdp h.1, keysOf_assocSet_nodup _ _ _ h.2⟩
  | none => exact dayKeyed_assocSet_mkPoint _ _ _ h

set_option maxRecDepth 4000 in
lemma processEventsIntoMap_dayKeyed (liquidityEvents : List ModifyLiquidityEvent)
    (swapEvents : List SwapEvent) (poolData : Pool) (now : Nat) :
    DayKeyed (processEventsIntoMap liquidityEvents swapEvents poolData now) := by
  have hEq : processEventsIntoMap liquidityEvents swapEvents poolData now =
      (((swapEvents.filter
          (fun e => now - lookbackSeconds ≤ e.timestamp)).insertionSort
            (fun a b => a.timestamp ≤ b.timestamp)).foldl swapStep
        (((liquidityEvents.filter
            (fun e => now - lookbackSeconds ≤ e.timestamp)).insertionSort
              (fun a b => a.timestamp ≤ b.timestamp)).foldl (liqStep poolData)
          (assocSet (dayOf (now - lookbackSeconds))
            (mkPoint (dayOf (now - lookbackSeconds))
              ⟨0, 0, 0, 0, poolData.tick, poolData.sqrtPrice⟩) [],
           ⟨0, 0, 0, 0, poolData.tick, poolData.sqrtPrice⟩))).1 := rfl
  rw [hEq]
  have hm0 : DayKeyedAcc (assocSet (dayOf (now - lookbackSeconds))
      (mkPoint (dayOf (now - lookbackSeconds))
        ⟨0, 0, 0, 0, poolData.tick, poolData.sqrtPrice⟩) [],
      (⟨0, 0, 0, 0, poolData.tick, poolData.sqrtPrice⟩ : ReplayState)) :=
    dayKeyed_assocSet_mkPoint [] _ _ ⟨by simp, by simp [keysOf]⟩
  have h1 := foldl_inv (liqStep poolData) DayKeyedAcc
    (liqStep_dayKeyed poolData)
    ((liquidityEvents.filter
      (fun e => now - lookbackSeconds ≤ e.timestamp)).insertionSort
        (fun a b => a.timestamp ≤ b.timestamp)) _ hm0
  have h2 := foldl_inv swapStep DayKeyedAcc swapStep_dayKeyed
    ((swapEvents.filter
      (fun e => now - lookbackSeconds ≤ e.timestamp)).insertionSort
        (fun a b => a.timestamp ≤ b.timestamp)) _ h1
  exact h2

/-- The snapshots of a day-keyed map have day-start timestamps with
pairwise-distinct days. -/
lemma dayKeyed_values (m : List (Nat × LiquidityDataPoint)) (h : DayKeyed m) :
    (∀ v ∈ m.map Prod.snd, secPerDay ∣ v.timestamp) ∧
    ((m.map Prod.snd).map (fun v => dayOf v.timestamp)).Nodup := by
  constructor
  · intro v hv
    obtain ⟨p, hp, rfl⟩ := List.mem_map.mp hv
    rw [h.1 p hp]
    exact Dvd.intro_left _ rfl
  · rw [List.map_map]
    have : m.map ((fun v => dayOf v.timestamp) ∘ Prod.snd) =
        m.map Prod.fst := by
      apply List.map_congr_left
      intro p hp
      show dayOf p.2.timestamp = p.1
      rw [h.1 p hp, dayOf, secPerDay]
      omega
    rw [this]
    exact h.2

lemma dayOf_day_start (k : Nat) : dayOf (k * secPerDay) = k := by
  rw [dayOf, secPerDay]
  omega

/-- Day-structure invariants of the gap-filling loop relative to the window
`[s, e]`: day-start timestamps, pairwise-distinct days, days within the
window, and the window's first day present. -/
def FillInv (s e : Nat) (filled : List ExtendedChartDataPoint) : Prop :=
  (∀ p ∈ filled, secPerDay ∣ p.timestamp) ∧
  (filled.map (fun p => dayOf p.timestamp)).Nodup ∧
  (∀ p ∈ filled, s ≤ dayOf p.timestamp ∧ dayOf p.timestamp ≤ e) ∧
  (∃ p ∈ filled, dayOf p.timestamp = s)

lemma fillStep_spec (s e curDay : Nat) (filled : List ExtendedChartDataPoint)
    (hs : s ≤ curDay) (hle : curDay ≤ e) (hinv : FillInv s e filled)
    (hcov : ∀ d, s ≤ d → d < curDay → ∃ p ∈ filled, dayOf p.timestamp = d) :
    FillInv s e (fillStep curDay filled) ∧
    (∀ d, s ≤ d → d < curDay + 1 →
      ∃ p ∈ fillStep curDay filled, dayOf p.timestamp = d) := by
  obtain ⟨hdvd, hnd, hbound, hfirst⟩ := hinv
  rw [fillStep]
  by_cases hany : filled.any (fun point => dayOf point.timestamp = curDay)
  · rw [if_pos hany]
    simp only [List.any_eq_true, decide_eq_true_eq] at hany
    refine ⟨⟨hdvd, hnd, hbound, hfirst⟩, ?_⟩
    intro d hd hd2
    rcases Nat.lt_or_ge d curDay with h | h
    · exact hcov d hd h
    · have : d = curDay := by omega
      subst this
      exact hany
  · rw [if_neg hany]
    simp only [List.any_eq_true, decide_eq_true_eq, not_exists] at hany
    push_neg at hany
    cases hf : filled.find? (fun point => dayOf point.timestamp = curDay - 1) with
    | none =>
      exfalso
      rw [List.find?_eq_none] at hf
      rcases Nat.eq_or_lt_of_le hs with h | h
      · obtain ⟨p, hp, hpd⟩ := hfirst
        exact hany p hp (by omega)
      · obtain ⟨p, hp, hpd⟩ := hcov (curDay - 1) (by omega) (by omega)
        exact hf p hp (by simp [hpd])
    | some previousData =>
      have hnew : dayOf (mkFilledPoint curDay previousData).timestamp = curDay := by
        show dayOf (curDay * secPerDay) = curDay
        exact dayOf_day_start curDay
      constructor
      · refine ⟨?_, ?_, ?_, ?_⟩
        · intro p hp
          rcases List.mem_append.mp hp with h | h
          · exact hdvd p h
          · rw [List.mem_singleton.mp h]
            exact Dvd.intro_left curDay rfl
        · rw [List.map_append]
          rw [List.nodup_append]
          refine ⟨hnd, by simp, ?_⟩
          intro a ha hb
          simp only [List.map_cons, List.map_nil, List.mem_cons,
            List.not_mem_nil, or_false] at hb
          obtain ⟨p, hp, hpa⟩ := List.mem_map.mp ha
          rw [hb] at hpa
          rw [hnew] at hpa
          exact hany p hp hpa
        · intro p hp
          rcases List.mem_append.mp hp with h | h
          · exact hbound p h
          · rw [List.mem_singleton.mp h, hnew]
            exact ⟨hs, hle⟩
        · obtain ⟨p, hp, hpd⟩ := hfirst
          exact ⟨p, List.mem_append_left _ hp, hpd⟩
      · intro d hd hd2
        rcases Nat.lt_or_ge d curDay with h | h
        · obtain ⟨p, hp, hpd⟩ := hcov d hd h
          exact ⟨p, List.mem_append_left _ hp, hpd⟩
        · have : d = curDay := by omega
          subst this
          exact ⟨mkFilledPoint d previousData,
            List.mem_append_right _ (List.mem_singleton_self _), hnew⟩

lemma fillGo_spec (s e : Nat) :
    ∀ (fuel curDay : Nat) (filled : List ExtendedChartDataPoint),
      fuel = e + 1 - curDay → s ≤ curDay →
      FillInv s e filled →
      (∀ d, s ≤ d → d < curDay → ∃ p ∈ filled, dayOf p.timestamp = d) →
      FillInv s e (fillGo e fuel curDay filled) ∧
      (∀ d, s ≤ d → d ≤ e →
        ∃ p ∈ fillGo e fuel curDay filled, dayOf p.timestamp = d) := by
  intro fuel
  induction fuel with
  | zero =>
    intro curDay filled hfuel hs hinv hcov
    have he : e < curDay := by omega
    rw [fillGo]
    exact ⟨hinv, fun d hd hd2 => hcov d hd (by omega)⟩
  | succ fuel ih =>
    intro curDay filled hfuel hs hinv hcov
    have hle : curDay ≤ e := by omega
    rw [fillGo, if_pos hle]
    obtain ⟨hinv', hcov'⟩ := fillStep_spec s e curDay filled hs hle hinv hcov
    exact ih (curDay + 1) (fillStep curDay filled) (by omega) (by omega)
      hinv' hcov'

instance : IsTotal ExtendedChartDataPoint
    (fun a b => a.timestamp ≤ b.timestamp) :=
  ⟨fun a b => Nat.le_total a.timestamp b.timestamp⟩

instance : IsTrans ExtendedChartDataPoint
    (fun a b => a.timestamp ≤ b.timestamp) :=
  ⟨fun _ _ _ hab hbc => Nat.le_trans hab hbc⟩

instance : IsTotal LiquidityDataPoint
    (fun a b => a.timestamp ≤ b.timestamp) :=
  ⟨fun a b => Nat.le_total a.timestamp b.timestamp⟩

instance : IsTrans LiquidityDataPoint
    (fun a b => a.timestamp ≤ b.timestamp) :=
  ⟨fun _ _ _ hab hbc => Nat.le_trans hab hbc⟩

lemma chain'_add_one_range' : ∀ (s n : Nat),
    List.Chain' (fun a b => b = a + 1) (List.range' s n) := by
  intro s n
  induction n generalizing s with
  | zero => simp
  | succ n ih =>
    rw [List.range'_succ]
    cases n with
    | zero => simp
    | succ n =>
      rw [List.range'_succ]
      exact List.Chain'.cons rfl (by rw [← List.range'_succ]; exact ih (s + 1))

/-- In a `≤`-sorted list every element is bounded by the last. -/
lemma pairwise_le_getLast? :
    ∀ (l : List ExtendedChartDataPoint),
      l.Pairwise (fun a b => a.timestamp ≤ b.timestamp) →
      ∀ p ∈ l, ∀ q, l.getLast? = some q → p.timestamp ≤ q.timestamp := by
  intro l
  induction l with
  | nil => intro _ p hp; simp at hp
  | cons a rest ih =>
    intro hsort p hp q hq
    cases rest with
    | nil =>
      simp only [List.getLast?_singleton, Option.some.injEq] at hq
      rw [List.mem_singleton.mp hp, ← hq]
    | cons b rest' =>
      rw [List.getLast?_cons_cons] at hq
      have hqmem : q ∈ b :: rest' := List.mem_of_getLast?_eq_some hq
      rcases List.mem_cons.mp hp with h | h
      · subst h
        exact (List.pairwise_cons.mp hsort).1 q hqmem
      · exact ih (List.pairwise_cons.mp hsort).2 p h q hq

set_option maxHeartbeats 1000000 in
/-- The core density result: on a `≤`-sorted input whose points sit at
pairwise-distinct day-starts, `fillMissingDates` returns a series whose
consecutive timestamps differ by exactly one day. -/
theorem fillMissingDates_chain (l : List ExtendedChartDataPoint)
    (hdvd : ∀ p ∈ l, secPerDay ∣ p.timestamp)
    (hnd : (l.map (fun p => dayOf p.timestamp)).Nodup)
    (hsort : l.Pairwise (fun a b => a.timestamp ≤ b.timestamp)) :
    List.Chain' (fun a b => b.timestamp = a.timestamp + secPerDay)
      (fillMissingDates l) := by
  cases l with
  | nil => simp [fillMissingDates]
  | cons first rest =>
    have hne : (first :: rest : List ExtendedChartDataPoint) ≠ [] := by simp
    set s := dayOf first.timestamp with hs_def
    set e := dayOf ((first :: rest).getLast hne).timestamp with he_def
    have hunfold : fillMissingDates (first :: rest) =
        (fillGo e (e + 1 - s) s (first :: rest)).insertionSort
          (fun a b => a.timestamp ≤ b.timestamp) := rfl
    rw [hunfold]
    -- bounds of the input days
    have hlow : ∀ p ∈ first :: rest, first.timestamp ≤ p.timestamp := by
      intro p hp
      rcases List.mem_cons.mp hp with h | h
      · rw [h]
      · exact (List.pairwise_cons.mp hsort).1 p h
    have hhigh : ∀ p ∈ first :: rest,
        p.timestamp ≤ ((first :: rest).getLast hne).timestamp :=
      fun p hp => pairwise_le_getLast? (first :: rest) hsort p hp _
        (List.getLast?_eq_getLast _ hne)
    have hbound : ∀ p ∈ first :: rest,
        s ≤ dayOf p.timestamp ∧ dayOf p.timestamp ≤ e := by
      intro p hp
      exact ⟨Nat.div_le_div_right (hlow p hp),
        Nat.div_le_div_right (hhigh p hp)⟩
    have hse : s ≤ e := by
      have := hbound first (List.mem_cons_self _ _)
      omega
    have hinv : FillInv s e (first :: rest) :=
      ⟨hdvd, hnd, hbound, first, List.mem_cons_self _ _, rfl⟩
    obtain ⟨⟨Fdvd, Fnd, Fbound, _⟩, Fcov⟩ :=
      fillGo_spec s e (e + 1 - s) s (first :: rest) rfl (le_refl s) hinv
        (fun d hd hd2 => absurd (Nat.lt_of_le_of_lt hd hd2) (lt_irrefl s))
    set F := fillGo e (e + 1 - s) s (first :: rest) with hF
    set final := F.insertionSort (fun a b => a.timestamp ≤ b.timestamp) with hfinal
    have hperm : List.Perm final F := List.perm_insertionSort _ _
    have hfsorted : final.Pairwise (fun a b => a.timestamp ≤ b.timestamp) :=
      List.sorted_insertionSort _ _
    -- the timestamp list of the sorted fill equals the canonical day grid
    have hts_eq : final.map (fun p => p.timestamp) =
        (List.range' s (e + 1 - s)).map (· * secPerDay) := by
      have hFts : ∀ p ∈ F, p.timestamp = dayOf p.timestamp * secPerDay := by
        intro p hp
        have h86 := Fdvd p hp
        rw [secPerDay] at h86
        rw [dayOf, secPerDay]
        omega
      have hFmap : F.map (fun p => p.timestamp) =
          (F.map (fun p => dayOf p.timestamp)).map (· * secPerDay) := by
        rw [List.map_map]
        exact List.map_congr_left hFts
      have hinj : Function.Injective (· * secPerDay) := by
        intro a b h
        simp only [secPerDay] at h
        omega
      have hnodupF : (F.map (fun p => p.timestamp)).Nodup := by
        rw [hFmap]
        exact Fnd.map hinj
      have hnodupFinal : (final.map (fun p => p.timestamp)).Nodup :=
        ((hperm.map _).nodup_iff).mpr hnodupF
      have hnodupCanon : ((List.range' s (e + 1 - s)).map
          (· * secPerDay)).Nodup :=
        (List.nodup_range' s (e + 1 - s)).map hinj
      have hmem : ∀ x, x ∈ final.map (fun p => p.timestamp) ↔
          x ∈ (List.range' s (e + 1 - s)).map (· * secPerDay) := by
        intro x
        constructor
        · intro hx
          obtain ⟨p, hp, rfl⟩ := List.mem_map.mp hx
          have hpF : p ∈ F := hperm.mem_iff.mp hp
          rw [hFts p hpF]
          refine List.mem_map.mpr ⟨dayOf p.timestamp, ?_, rfl⟩
          rw [List.mem_range']
          have := Fbound p hpF
          exact ⟨dayOf p.timestamp - s, by omega, by omega⟩
        · intro hx
          obtain ⟨d, hd, rfl⟩ := List.mem_map.mp hx
          rw [List.mem_range'] at hd
          obtain ⟨i, hi, rfl⟩ := hd
          obtain ⟨p, hp, hpd⟩ := Fcov (s + 1 * i) (by omega) (by omega)
          refine List.mem_map.mpr ⟨p, hperm.mem_iff.mpr hp, ?_⟩
          rw [hFts p hp, hpd]
      refine List.eq_of_perm_of_sorted (r := (· ≤ · : Nat → Nat → Prop))
        ((List.perm_ext_iff_of_nodup hnodupFinal hnodupCanon).mpr hmem) ?_ ?_
      · show List.Pairwise (· ≤ ·)
          (final.map (fun p : ExtendedChartDataPoint => p.timestamp))
        rw [List.pairwise_map]
        exact hfsorted
      · refine (List.pairwise_lt_range' s (e + 1 - s)).map
          (· * secPerDay) ?_
        intro a b h
        show a * secPerDay ≤ b * secPerDay
        rw [secPerDay]
        omega
    have hcanon_chain : List.Chain'
        (fun x y => y = x + secPerDay)
        ((List.range' s (e + 1 - s)).map (· * secPerDay)) := by
      rw [List.chain'_map]
      refine (chain'_add_one_range' s (e + 1 - s)).imp ?_
      intro a b h
      rw [h, secPerDay]
      ring
    rw [← hts_eq] at hcanon_chain
    exact (List.chain'_map
      (fun p : ExtendedChartDataPoint => p.timestamp)).mp hcanon_chain

/-- `combineDataWithFees` never changes a point's timestamp. -/
lemma combineDataWithFees_timestamps (dataPoints : List LiquidityDataPoint)
    (feesData : List DailyFeeData) :
    (combineDataWithFees dataPoints feesData).map (fun p => p.timestamp) =
      dataPoints.map (fun p => p.timestamp) := by
  rw [combineDataWithFees, List.map_map]
  apply List.map_congr_left
  intro dp hdp
  simp only [Function.comp]
  cases feesData.find? (fun fee => fee.timestamp = dp.timestamp) <;> rfl

set_option maxRecDepth 4000 in
/-- The reconstructed series steps by exactly one calendar day (86400 s)
between consecutive points. -/
lemma useLiquidityHistory_day_chain (liquidityEvents : List ModifyLiquidityEvent)
    (swapEvents : List SwapEvent) (poolData : Pool) (now : Nat) :
    List.Chain' (fun a b => b.timestamp = a.timestamp + secPerDay)
      (useLiquidityHistory liquidityEvents swapEvents poolData now) := by
  have hEq : useLiquidityHistory liquidityEvents swapEvents poolData now =
      fillMissingDates (combineDataWithFees
        (((processEventsIntoMap
            (liquidityEvents.insertionSort (fun a b => a.timestamp ≤ b.timestamp))
            (swapEvents.insertionSort (fun a b => a.timestamp ≤ b.timestamp))
            poolData now).map Prod.snd).insertionSort
          (fun a b => a.timestamp ≤ b.timestamp))
        (calculateDailyFees
          (swapEvents.insertionSort (fun a b => a.timestamp ≤ b.timestamp))
          poolData.feeTier)) := rfl
  rw [hEq]
  obtain ⟨hdvdV, hndV⟩ := dayKeyed_values _
    (processEventsIntoMap_dayKeyed
      (liquidityEvents.insertionSort (fun a b => a.timestamp ≤ b.timestamp))
      (swapEvents.insertionSort (fun a b => a.timestamp ≤ b.timestamp))
      poolData now)
  set V := (processEventsIntoMap
      (liquidityEvents.insertionSort (fun a b => a.timestamp ≤ b.timestamp))
      (swapEvents.insertionSort (fun a b => a.timestamp ≤ b.timestamp))
      poolData now).map Prod.snd with hV
  set sortedDP := V.insertionSort (fun a b => a.timestamp ≤ b.timestamp)
    with hsortedDP
  have hpermS : List.Perm sortedDP V := List.perm_insertionSort _ _
  have hsortS : sortedDP.Pairwise (fun a b => a.timestamp ≤ b.timestamp) :=
    List.sorted_insertionSort _ _
  set fees := calculateDailyFees
    (swapEvents.insertionSort (fun a b => a.timestamp ≤ b.timestamp))
    poolData.feeTier with hfees
  have htseq := combineDataWithFees_timestamps sortedDP fees
  apply fillMissingDates_chain
  · -- all timestamps are day starts
    intro p hp
    have hts : p.timestamp ∈ (combineDataWithFees sortedDP fees).map
        (fun p => p.timestamp) := List.mem_map_of_mem _ hp
    rw [htseq] at hts
    obtain ⟨q, hq, hqe⟩ := List.mem_map.mp hts
    rw [← hqe]
    exact hdvdV q (hpermS.mem_iff.mp hq)
  · -- pairwise-distinct days
    have hcomb_days := congrArg (List.map dayOf) htseq
    rw [List.map_map, List.map_map] at hcomb_days
    have h1 : (combineDataWithFees sortedDP fees).map
        (fun p => dayOf p.timestamp) =
        (combineDataWithFees sortedDP fees).map
          (dayOf ∘ fun p => p.timestamp) := rfl
    have h2 : sortedDP.map
        (dayOf ∘ fun p : LiquidityDataPoint => p.timestamp) =
        sortedDP.map (fun v => dayOf v.timestamp) := rfl
    rw [h1, hcomb_days, h2]
    exact ((hpermS.map _).nodup_iff).mpr hndV
  · -- sorted ascending by timestamp
    have h1 : List.Pairwise (· ≤ ·)
        ((combineDataWithFees sortedDP fees).map (fun p => p.timestamp)) := by
      rw [htseq, List.pairwise_map]
      exact hsortS
    rw [List.pairwise_map] at h1
    exact h1

/-- C3: for every input, the reconstructed daily series is strictly
ascending by timestamp, contains at most one point per calendar day, and has
no gap between consecutive points greater than one calendar day. -/
theorem reconstructed_series_daily_dense
    (liquidityEvents : List ModifyLiquidityEvent)
    (swapEvents : List SwapEvent) (poolData : Pool) (now : Nat) :
    List.Chain' (fun a b => a.timestamp < b.timestamp)
      (useLiquidityHistory liquidityEvents swapEvents poolData now) ∧
    List.Pairwise (fun a b => dayOf a.timestamp ≠ dayOf b.timestamp)
      (useLiquidityHistory liquidityEvents swapEvents poolData now) ∧
    List.Chain' (fun a b => dayOf b.timestamp ≤ dayOf a.timestamp + 1)
      (useLiquidityHistory liquidityEvents swapEvents poolData now) := by
  have hmaster := useLiquidityHistory_day_chain liquidityEvents swapEvents
    poolData now
  refine ⟨hmaster.imp ?_, ?_, hmaster.imp ?_⟩
  · intro a b h
    simp only [secPerDay] at h
    omega
  · have hday : List.Chain'
        (fun a b : ExtendedChartDataPoint =>
          dayOf a.timestamp < dayOf b.timestamp)
        (useLiquidityHistory liquidityEvents swapEvents poolData now) := by
      refine hmaster.imp ?_
      intro a b h
      simp only [secPerDay] at h
      simp only [dayOf, secPerDay]
      omega
    haveI : IsTrans ExtendedChartDataPoint
        (fun a b => dayOf a.timestamp < dayOf b.timestamp) :=
      ⟨fun _ _ _ hab hbc => Nat.lt_trans hab hbc⟩
    exact (List.chain'_iff_pairwise.mp hday).imp fun h => by omega
  · intro a b h
    simp only [secPerDay] at h
    simp only [dayOf, secPerDay]
    omega

end V4LiqTracker
